import Mathlib

/-!
Verification of the proof-reconstruction package of octopus-network/trie-go
(package `proof`: `Verify`, `BuildTrie`, `LoadProof`) against its
natural-language specification.

Bytes are modelled as `Nat` (the Go code's `byte` values are < 256; where a
byte's bit decomposition matters we normalise with `% 256`).  The BLAKE2b-256
hash is not in the repository (it is an external library), so every
definition that hashes is parameterised by an abstract hash function
`H : List Nat → List Nat`.  The node codec (`sub.Decode`), the merkle-value
helpers (`sub.MerkleValueRoot`) and the trie lookup (`trie.Trie.Get`) are
code of this repository that is not among the given source files; they are
modelled from the specification (each such definition's doc comment starts
with "Modelled from the spec").  `Verify`, `BuildTrie` and `LoadProof`
themselves are translated directly from the source file of package `proof`.

The Go `uint32` field `Descendants` wraps modulo 2^32; `wadd`/`wsub` model
its arithmetic.  Go's unbounded recursion (in `Decode` and `LoadProof`) is
modelled with an explicit fuel parameter; a terminating Go execution is
matched by any sufficiently large fuel, and every universally quantified
theorem below quantifies over the fuel.
-/

namespace TrieGo

/-- A byte sequence (each entry a byte value). -/
abbrev Bytes := List Nat

/-- An abstract stand-in for the BLAKE2b-256 hash function, which lives in an
external library (`golang.org/x/crypto/blake2b`). -/
abbrev Hash := Bytes → Bytes

/-- The trie node of package `substrate` (`sub.Node`): partial key (nibbles),
storage value (`none` models Go's nil slice, `some []` an empty but present
value), the 16 child slots (`[]` models Go's nil `Children` slice, i.e. a
leaf), the cached merkle value `NodeValue`, the dirty flag, and the
`uint32` descendant count. -/
inductive Node : Type where
  | mk : Bytes → Option Bytes → List (Option Node) → Bytes → Bool → Nat → Node
deriving Repr

/-- The source's `PartialKey` field (the nibble sequence consumed by this
node), named `pkey` here. -/
def Node.pkey : Node → Bytes
  | .mk pk _ _ _ _ _ => pk

/-- The source's `StorageValue` field. -/
def Node.storageValue : Node → Option Bytes
  | .mk _ sv _ _ _ _ => sv

/-- The source's `Children` field; `[]` stands for Go's nil slice. -/
def Node.children : Node → List (Option Node)
  | .mk _ _ ch _ _ _ => ch

/-- The source's `NodeValue` field (cached merkle value / hash reference). -/
def Node.nodeValue : Node → Bytes
  | .mk _ _ _ nv _ _ => nv

/-- The source's `Dirty` field. -/
def Node.dirty : Node → Bool
  | .mk _ _ _ _ d _ => d

/-- The source's `Descendants` field (a Go `uint32`). -/
def Node.descendants : Node → Nat
  | .mk _ _ _ _ _ ds => ds

/-- The node with its `Dirty` field set to true (the source's in-place
assignment `n.Dirty = true`). -/
def Node.withDirty (n : Node) : Node :=
  .mk n.pkey n.storageValue n.children n.nodeValue true n.descendants

/-- The node with `Children` and `Descendants` replaced (used to write back
the state of `LoadProof`'s loop). -/
def Node.withChildrenDesc (n : Node) (ch : List (Option Node)) (ds : Nat) : Node :=
  .mk n.pkey n.storageValue ch n.nodeValue n.dirty ds

/-- The source's `Node.HasChild`: some child slot is non-nil. -/
def Node.hasChild (n : Node) : Bool :=
  n.children.any fun c => c.isSome

/-- Go `uint32` addition (wraps modulo 2^32). -/
def wadd (a b : Nat) : Nat := (a + b) % 4294967296

/-- Go `uint32` subtraction (wraps modulo 2^32). -/
def wsub (a b : Nat) : Nat := (a % 4294967296 + 4294967296 - b % 4294967296) % 4294967296

/-- Decode errors of the node codec (the source reports e.g.
`ErrVariantUnknown` for an unknown header byte). -/
inductive DecodeError : Type where
  | variantUnknown (headerByte : Nat)
  | truncated
  | badPadNibble
  | fuelExhausted
deriving Repr, DecidableEq

/-- Read one byte from the input. -/
def readByte : Bytes → Except DecodeError (Nat × Bytes)
  | [] => .error .truncated
  | b :: r => .ok (b % 256, r)

/-- Read exactly `n` bytes from the input. -/
def readBytes (n : Nat) (l : Bytes) : Except DecodeError (Bytes × Bytes) :=
  if n ≤ l.length then .ok (l.take n, l.drop n) else .error .truncated

/-- A little-endian byte list as a natural number. -/
def leNat (l : Bytes) : Nat :=
  l.foldr (fun b acc => b % 256 + 256 * acc) 0

/-- Modelled from the spec (§4.3.1, the missing `sub` codec): partial-key
length continuation bytes.  Each byte 255 adds 255 more nibbles and
continues; a byte below 255 is added and terminates. -/
def readPkLenCont : Bytes → Nat → Except DecodeError (Nat × Bytes)
  | [], _ => .error .truncated
  | b :: r, acc => if b % 256 = 255 then readPkLenCont r (acc + 255) else .ok (acc + b % 256, r)

/-- Modelled from the spec (§4.3.1, the missing `sub` codec): the header.
The first byte's top two bits give the variant (01 leaf, 10 branch without
value, 11 branch with value; anything else is `ErrVariantUnknown`), its low
six bits the initial partial-key nibble count, continued when all six bits
are set.  Result: (variant, partial-key length, rest). -/
def decodeHeader (l : Bytes) : Except DecodeError (Nat × Nat × Bytes) :=
  match readByte l with
  | .error e => .error e
  | .ok (b, r) =>
    let variant := b / 64
    if variant = 0 then .error (.variantUnknown b)
    else
      let pk0 := b % 64
      if pk0 = 63 then
        match readPkLenCont r 63 with
        | .error e => .error e
        | .ok (len, r2) => .ok (variant, len, r2)
      else .ok (variant, pk0, r)

/-- High and low nibble of a byte, high first. -/
def byteNibbles (b : Nat) : Bytes := [b % 256 / 16, b % 16]

/-- Modelled from the spec (§4.3.2, the missing `sub` codec): the partial
key. `ceil(pkLen/2)` bytes follow the header; for an odd nibble count the
first byte's high nibble must be zero (else `badPadNibble`). -/
def decodePkey (pkLen : Nat) (l : Bytes) : Except DecodeError (Bytes × Bytes) :=
  match readBytes ((pkLen + 1) / 2) l with
  | .error e => .error e
  | .ok (bs, r) =>
    if pkLen % 2 = 1 then
      match bs with
      | [] => .error .truncated
      | b :: bs2 =>
        if b % 256 / 16 ≠ 0 then .error .badPadNibble
        else .ok (b % 16 :: bs2.flatMap byteNibbles, r)
    else .ok (bs.flatMap byteNibbles, r)

/-- Modelled from the spec (§6.4, the external SCALE codec consumed by the
node codec): a SCALE compact-encoded natural number. -/
def readCompact (l : Bytes) : Except DecodeError (Nat × Bytes) :=
  match readByte l with
  | .error e => .error e
  | .ok (b, r) =>
    match b % 4 with
    | 0 => .ok (b / 4, r)
    | 1 =>
      match readByte r with
      | .error e => .error e
      | .ok (b1, r1) => .ok ((b + 256 * b1) / 4, r1)
    | 2 =>
      match readBytes 3 r with
      | .error e => .error e
      | .ok (bs, r1) => .ok ((b + 256 * leNat bs) / 4, r1)
    | _ =>
      match readBytes (b / 4 + 4) r with
      | .error e => .error e
      | .ok (bs, r1) => .ok (leNat bs, r1)

/-- Modelled from the spec (§4.3.3/§4.3.4): a SCALE length-prefixed byte
string. -/
def readScaleBytes (l : Bytes) : Except DecodeError (Bytes × Bytes) :=
  match readCompact l with
  | .error e => .error e
  | .ok (n, r) => readBytes n r

/-- Modelled from the spec (§3/§4.3.3): a child slot holding a 32-byte hash
reference is stored as a node whose `NodeValue` is the digest and which has
no storage value and no children. -/
def hashRefNode (digest : Bytes) : Node :=
  .mk [] none [] digest false 0

/-- Modelled from the spec (§3): a freshly decoded branch's descendant count,
one per non-empty child slot plus each inline child's own descendants
(`uint32` arithmetic). -/
def childrenDesc (cs : List (Option Node)) : Nat :=
  cs.foldl (fun acc c => match c with
    | some n => wadd (wadd acc 1) n.descendants
    | none => acc) 0

/-- Modelled from the spec (§4.3.3, the missing `sub` codec): the children of
a branch.  `bits` is the 16-entry children bitmap; each present child is a
SCALE length-prefixed payload, decoded inline when `dec` parses it and kept
as an opaque hash reference otherwise ("attempt inline decoding first and
fall back to hash-reference storage"). -/
def decodeChildren (dec : Bytes → Option Node) :
    List Bool → Bytes → Except DecodeError (List (Option Node) × Bytes)
  | [], l => .ok ([], l)
  | b :: bs, l =>
    if b then
      match readScaleBytes l with
      | .error e => .error e
      | .ok (payload, rest) =>
        let child := match dec payload with
          | some n => n
          | none => hashRefNode payload
        match decodeChildren dec bs rest with
        | .error e => .error e
        | .ok (cs, r) => .ok (some child :: cs, r)
    else
      match decodeChildren dec bs l with
      | .error e => .error e
      | .ok (cs, r) => .ok (none :: cs, r)

/-- Modelled from the spec (§4.3, the missing `sub.Decode`): decode one node
from a byte stream, returning the node and the unread remainder.  Leaf:
header, partial key, SCALE storage value.  Branch: header, partial key,
16-bit little-endian children bitmap, children, then (for branch-with-value)
the SCALE storage value.  The fuel bounds the nesting depth of inline
children (each inline child's payload is strictly shorter than its parent's
encoding, so `length + 1` fuel always suffices). -/
def decode : Nat → Bytes → Except DecodeError (Node × Bytes)
  | 0, _ => .error .fuelExhausted
  | fuel + 1, l =>
    match decodeHeader l with
    | .error e => .error e
    | .ok (variant, pkLen, r1) =>
      match decodePkey pkLen r1 with
      | .error e => .error e
      | .ok (pk, r2) =>
        if variant = 1 then
          match readScaleBytes r2 with
          | .error e => .error e
          | .ok (sv, r3) => .ok (.mk pk (some sv) [] [] false 0, r3)
        else
          match readBytes 2 r2 with
          | .error e => .error e
          | .ok (bm, r3) =>
            let bitmap := leNat bm
            let bits := (List.range 16).map fun i => bitmap.testBit i
            let dec := fun payload =>
              match decode fuel payload with
              | .ok (n, _) => some n
              | .error _ => none
            match decodeChildren dec bits r3 with
            | .error e => .error e
            | .ok (cs, r4) =>
              if variant = 3 then
                match readScaleBytes r4 with
                | .error e => .error e
                | .ok (sv, r5) => .ok (.mk pk (some sv) cs [] false (childrenDesc cs), r5)
              else .ok (.mk pk none cs [] false (childrenDesc cs), r4)

/-- Modelled from the spec: the source's `sub.Decode(bytes.NewReader(enc))`,
which reads one node and ignores trailing bytes. -/
def DecodeBytes (enc : Bytes) : Except DecodeError Node :=
  match decode (enc.length + 1) enc with
  | .error e => .error e
  | .ok (n, _) => .ok n

/-- Modelled from the spec (§4.3.5, the missing `sub.MerkleValue`): the
encoding itself when shorter than 32 bytes, else its hash. -/
def MerkleValue (H : Hash) (enc : Bytes) : Bytes :=
  if enc.length < 32 then enc else H enc

/-- Modelled from the spec (§4.3.5, the missing `sub.MerkleValueRoot`):
always the hash of the encoding, regardless of its length. -/
def MerkleValueRoot (H : Hash) (enc : Bytes) : Bytes := H enc

/-- The trie of package `trie`: an optional root node (`none` models Go's
nil root pointer). -/
structure Trie : Type where
  root : Option Node
deriving Repr

/-- The source's `trie.NewTrie(root)` (called with a non-nil root). -/
def NewTrie (n : Node) : Trie := ⟨some n⟩

/-- Modelled from the spec (§3): a key's nibble form, splitting each byte
high nibble first. -/
def keyToNibbles (key : Bytes) : Bytes :=
  key.flatMap byteNibbles

/-- Modelled from the spec (§4.4, the missing trie lookup): walk from `n`
matching its partial key against the remaining nibbles; on an exact match
return the storage value, otherwise consume the partial key plus one nibble
as the child index and recurse.  The fuel bounds the depth; each step
consumes at least one nibble, so `key.length + 1` always suffices. -/
def retrieve : Nat → Node → Bytes → Option Bytes
  | 0, _, _ => none
  | fuel + 1, n, key =>
    if n.pkey.isPrefixOf key then
      match key.drop n.pkey.length with
      | [] => n.storageValue
      | i :: rest =>
        match n.children.getD i none with
        | some c => retrieve fuel c rest
        | none => none
    else none

/-- Modelled from the spec (§4.4, the missing `trie.Trie.Get`): lookup of a
little-endian key; returns `none` (Go nil) when the key is absent. -/
def Trie.Get (t : Trie) (keyLE : Bytes) : Option Bytes :=
  match t.root with
  | none => none
  | some r =>
    let nibbles := keyToNibbles keyLE
    retrieve (nibbles.length + 1) r nibbles

/-- The Go map `digestToEncoding` from `BuildTrie`, as a function from
digest to encoding (insertion overwrites, lookup is function application). -/
def Index : Type := Bytes → Option Bytes

/-- The empty `digestToEncoding` map. -/
def emptyIndex : Index := fun _ => none

/-- Insertion into the `digestToEncoding` map (Go assignment
`digestToEncoding[string(digest)] = encodedProofNode`). -/
def insertIdx (m : Index) (d e : Bytes) : Index :=
  fun k => if k = d then some e else m k

/-- The errors declared by package `proof` (plus a decode-failure wrapper for
the errors the commented-out returns would have propagated). -/
inductive ProofError : Type where
  | emptyProof
  | rootNodeNotFound
  | keyNotFoundInProofTrie
  | valueMismatchProofTrie
  | decodeFailure (e : DecodeError)
deriving Repr, DecidableEq

/-- The state of `LoadProof`'s loop over a branch's child slots: the current
children slice, the current descendant count, and whether the loop was left
early by the `return nil` in the child-decode-error branch. -/
structure LPState : Type where
  children : List (Option Node)
  desc : Nat
  aborted : Bool
deriving Repr

/-- The source's test `len(child.StorageValue) > 0 || child.HasChild()` from
`LoadProof`, deciding whether a child slot absent from the index is an
inlined child. -/
def inlinedChild (c : Node) : Bool :=
  (c.storageValue.getD []).length != 0 || c.hasChild

/-- One iteration of `LoadProof`'s loop (source lines 233-279): slot `i`
holding `slot`, with `rec` the recursive call `LoadProof(digestToEncoding, ·)`
on a freshly materialised child.  A nil slot is skipped; a slot absent from
the index is kept dirty when inlined and pruned otherwise (with
collapse-to-leaf when no children remain); a slot found in the index is
decoded (a decode failure makes the Go code return early — `aborted`),
replaced, added to the parent's descendant count and recursed into. -/
def loadSlot (rec : Node → Node) (idx : Index) (i : Nat) (slot : Option Node)
    (st : LPState) : LPState :=
  if st.aborted then st else
  match slot with
  | none => st
  | some child =>
    match idx child.nodeValue with
    | none =>
      if inlinedChild child then
        { st with children := st.children.set i (some child.withDirty) }
      else
        let ch := st.children.set i none
        let ch2 := if ch.any (fun c => c.isSome) then ch else []
        { st with children := ch2, desc := wsub st.desc (wadd 1 child.descendants) }
    | some encoding =>
      match DecodeBytes encoding with
      | .error _ => { st with aborted := true }
      | .ok c =>
        let c1 := c.withDirty
        let c2 := rec c1
        { st with children := st.children.set i (some c2),
                  desc := wadd st.desc c1.descendants }

/-- The loop of `LoadProof` over the (captured) children slice, threading the
state through `loadSlot` with the running slot index. -/
def loadSlots (rec : Node → Node) (idx : Index) :
    List (Option Node) → Nat → LPState → LPState
  | [], _, st => st
  | s :: rest, i, st => loadSlots rec idx rest (i + 1) (loadSlot rec idx i s st)

/-- The source's `LoadProof(digestToEncoding, n)`.  A non-branch node is left
alone.  For a branch the loop above runs over its children; the updated
children and descendant count are written back.  Note every return in the
source is `return nil`: the error component is always `none`, including the
child-decode-failure branch (source line 264), which only stops the loop.
The fuel bounds the recursion depth (unbounded in Go; any fuel at least the
depth of the materialised tree gives the Go behaviour). -/
def LoadProof : Nat → Index → Node → Node × Option ProofError
  | 0, _, n => (n, none)
  | fuel + 1, idx, n =>
    if n.children.isEmpty then (n, none)
    else
      let st := loadSlots (fun m => (LoadProof fuel idx m).1) idx
        n.children 0 ⟨n.children, n.descendants, false⟩
      (n.withChildrenDesc st.children st.desc, none)

/-- One step of `BuildTrie`'s scanning loop (source lines 170-202) as it
leaves the state `(root?, digestToEncoding)`: when the root was already
found or the digest differs from the root hash the encoding is indexed;
otherwise the encoding is decoded as the root (a failure makes `BuildTrie`
return `nil, nil`, modelled as `Except.error ()`) and marked dirty. -/
def scanAux (H : Hash) (rootHash : Bytes) :
    List Bytes → Option Node × Index → Except Unit (Option Node × Index)
  | [], st => .ok st
  | e :: rest, st =>
    let digest := MerkleValueRoot H e
    if st.1.isSome ∨ digest ≠ rootHash then
      scanAux H rootHash rest (st.1, insertIdx st.2 digest e)
    else
      match DecodeBytes e with
      | .error _ => .error ()
      | .ok n => scanAux H rootHash rest (some n.withDirty, st.2)

/-- The scanning loop of `BuildTrie` started on the empty state. -/
def scanProof (H : Hash) (proof : List Bytes) (rootHash : Bytes) :
    Except Unit (Option Node × Index) :=
  scanAux H rootHash proof (none, emptyIndex)

/-- The source's `BuildTrie(encodedProofNodes, rootHash)`.  An empty proof
fails with `ErrEmptyProof`; the scan finds the root and indexes the other
encodings; with no root found, or a root decode failure, the source returns
`nil, nil` (the error returns are commented out); otherwise `LoadProof` runs
(its error, always nil, is still checked) and the trie is returned.  The
`MerkleValueRoot` error branch of the source is unreachable (writing to a
`bytes.Buffer` cannot fail) and the modelled hash is total. -/
def BuildTrie (fuel : Nat) (H : Hash) (proof : List Bytes) (rootHash : Bytes) :
    Option Trie × Option ProofError :=
  if proof = [] then (none, some .emptyProof)
  else
    match scanProof H proof rootHash with
    | .error _ => (none, none)
    | .ok (none, _) => (none, none)
    | .ok (some root, idx) =>
      match LoadProof fuel idx root with
      | (_, some _) => (none, none)
      | (root2, none) => (some (NewTrie root2), none)

/-- The source's `Verify(encodedProofNodes, rootHash, key, value)`.  Every
failure branch of the source returns `nil` (the error returns are commented
out): a build failure, a key not found in the proof trie, and a value
mismatch all yield `none`. -/
def Verify (fuel : Nat) (H : Hash) (proof : List Bytes)
    (rootHash key value : Bytes) : Option ProofError :=
  match BuildTrie fuel H proof rootHash with
  | (_, some _) => none
  | (none, none) => none
  | (some t, none) =>
    match t.Get key with
    | none => none
    | some got =>
      if value.length > 0 && !(value == got) then none
      else none

/-! Concrete material used by the counterexample/failing-input theorems:
a concrete stand-in hash (any function works, the code never relies on a
hash property on these inputs), two leaf encodings, and a branch holding a
hash-reference child. -/

/-- A concrete instantiation of the abstract hash for evaluating the code on
failing inputs: the identity on byte strings. -/
def idHash : Hash := fun b => b

/-- The leaf `{pkey = [1], storageValue = [2]}` as decoded from
`leafEncA` and marked dirty by `BuildTrie`. -/
def leafA : Node := .mk [1] (some [2]) [] [] true 0

/-- An encoding of a leaf with partial key nibble `1` and storage value
`[2]` (header `0b01000001`, key byte, SCALE length 1, value). -/
def leafEncA : Bytes := [65, 1, 4, 2]

/-- The leaf `{pkey = [1,1], storageValue = [2]}` as decoded from
`leafEncB` and marked dirty by `BuildTrie`. -/
def leafB : Node := .mk [1, 1] (some [2]) [] [] true 0

/-- An encoding of a leaf with partial key nibbles `[1,1]` and storage value
`[2]` (header `0b01000010`, key byte `0x11`, SCALE length 1, value). -/
def leafEncB : Bytes := [66, 17, 4, 2]

/-- A child slot holding the hash reference `[2]` (no storage value, no
children: not an inlined child). -/
def hashRefB : Node := .mk [] none [] [2] false 0

/-- An index mapping the digest `[2]` to the undecodable encoding `[1]`
(header byte `0b00000001`, unknown variant). -/
def idxB : Index := fun k => if k = [2] then some [1] else none

/-- A branch whose only child slot holds `hashRefB`. -/
def branchB : Node := .mk [1] (some [2]) (some hashRefB :: List.replicate 15 none) [] true 1

/-- A child slot holding the hash reference `[3]`. -/
def hashRefC : Node := .mk [] none [] [3] false 0

/-- An index mapping the digest `[3]` to the undecodable encoding `[1]`. -/
def idxC : Index := fun k => if k = [3] then some [1] else none

/-- A branch whose only child slot holds `hashRefC`. -/
def branchC : Node := .mk [5] (some [7]) (some hashRefC :: List.replicate 15 none) [] true 1

/-- The error component of `LoadProof` is `none` on every path (each
`return` in the source is `return nil`). -/
theorem LoadProof_err (fuel : Nat) (idx : Index) (n : Node) :
    (LoadProof fuel idx n).2 = none := by
  cases fuel with
  | zero => rfl
  | succ k =>
    unfold LoadProof
    split <;> rfl

/-- C9. For every input (any proof, root hash, key and expected value) and
any fuel and hash function, `Verify` returns a nil error: the build-failure,
key-not-found and value-mismatch branches all return `nil` instead of their
errors. -/
theorem verify_always_returns_nil (fuel : Nat) (H : Hash) (proof : List Bytes)
    (rootHash key value : Bytes) :
    Verify fuel H proof rootHash key value = none := by
  unfold Verify
  rcases BuildTrie fuel H proof rootHash with ⟨t?, e?⟩
  cases e? with
  | some e => cases t? <;> rfl
  | none =>
    cases t? with
    | none => rfl
    | some t =>
      show (match t.Get key with
        | none => none
        | some got =>
          if value.length > 0 && !(value == got) then none else none) = none
      cases t.Get key with
      | none => rfl
      | some got => exact ite_self none

/-- C10. `BuildTrie` returns a non-nil error exactly when the proof list is
empty (and then the error is `ErrEmptyProof` with a nil trie); on a scan
failure (root decode error) and on a root-not-found scan it returns both a
nil trie and a nil error. -/
theorem buildTrie_error_iff_empty (fuel : Nat) (H : Hash) (proof : List Bytes)
    (rootHash : Bytes) :
    ((BuildTrie fuel H proof rootHash).2 ≠ none ↔ proof = [])
    ∧ (proof = [] → BuildTrie fuel H proof rootHash = (none, some .emptyProof))
    ∧ (proof ≠ [] → scanProof H proof rootHash = .error () →
        BuildTrie fuel H proof rootHash = (none, none))
    ∧ (proof ≠ [] → ∀ idx, scanProof H proof rootHash = .ok (none, idx) →
        BuildTrie fuel H proof rootHash = (none, none)) := by
  by_cases hp : proof = []
  · subst hp
    have hb : BuildTrie fuel H [] rootHash = (none, some .emptyProof) := by
      unfold BuildTrie
      exact if_pos rfl
    refine ⟨?_, fun _ => hb, fun h => absurd rfl h, fun h => absurd rfl h⟩
    rw [hb]
    exact ⟨fun _ => rfl, fun _ => Option.some_ne_none _⟩
  · have hite : BuildTrie fuel H proof rootHash =
        match scanProof H proof rootHash with
        | .error _ => (none, none)
        | .ok (none, _) => (none, none)
        | .ok (some root, idx) =>
          match LoadProof fuel idx root with
          | (_, some _) => (none, none)
          | (root2, none) => (some (NewTrie root2), none) := by
      unfold BuildTrie
      exact if_neg hp
    have hsnd : (BuildTrie fuel H proof rootHash).2 = none := by
      rw [hite]
      rcases hscan : scanProof H proof rootHash with e | ⟨r?, idx⟩
      · rfl
      · cases r? with
        | none => rfl
        | some root =>
          show (match LoadProof fuel idx root with
            | (_, some _) => ((none : Option Trie), (none : Option ProofError))
            | (root2, none) => (some (NewTrie root2), none)).2 = none
          rcases LoadProof fuel idx root with ⟨root2, e?⟩
          cases e? <;> rfl
    refine ⟨⟨fun hne => absurd hsnd hne, fun h => absurd h hp⟩,
      fun h => absurd h hp, ?_, ?_⟩
    · intro _ hscan
      rw [hite, hscan]
    · intro _ idx hscan
      rw [hite, hscan]

/-- The cumulative effect of `BuildTrie`'s loop on the nodes it does not take
as root: each is stored in the index under its (always hashed) merkle
value, later insertions overwriting earlier ones. -/
def insertAll (H : Hash) (l : List Bytes) (idx : Index) : Index :=
  l.foldl (fun m e => insertIdx m (MerkleValueRoot H e) e) idx

/-- Once the root has been found, the rest of the scan only fills the
index. -/
theorem scanAux_rooted (H : Hash) (r : Bytes) (n : Node) :
    ∀ (l : List Bytes) (idx : Index),
    scanAux H r l (some n, idx) = .ok (some n, insertAll H l idx) := by
  intro l
  induction l with
  | nil => intro idx; rfl
  | cons e rest ih =>
    intro idx
    show (if (some n : Option Node).isSome ∨ MerkleValueRoot H e ≠ r then
        scanAux H r rest (some n, insertIdx idx (MerkleValueRoot H e) e)
      else
        match DecodeBytes e with
        | .error _ => .error ()
        | .ok m => scanAux H r rest (some m.withDirty, idx)) = _
    rw [if_pos (show (some n : Option Node).isSome = true ∨ MerkleValueRoot H e ≠ r
      from Or.inl rfl)]
    exact ih _

/-- The scan on a proof whose first root-hash match is `E` (decoding to `n`):
the root is `n` marked dirty and the index holds exactly the other nodes. -/
theorem scanAux_root_found (H : Hash) (r : Bytes) (E : Bytes) (n : Node)
    (hE : MerkleValueRoot H E = r) (hdec : DecodeBytes E = .ok n) :
    ∀ (pfx : List Bytes), (∀ e ∈ pfx, MerkleValueRoot H e ≠ r) →
    ∀ (sfx : List Bytes) (idx : Index),
    scanAux H r (pfx ++ E :: sfx) (none, idx)
      = .ok (some n.withDirty, insertAll H sfx (insertAll H pfx idx)) := by
  intro pfx
  induction pfx with
  | nil =>
    intro _ sfx idx
    show (if (none : Option Node).isSome ∨ MerkleValueRoot H E ≠ r then
        scanAux H r sfx (none, insertIdx idx (MerkleValueRoot H E) E)
      else
        match DecodeBytes E with
        | .error _ => .error ()
        | .ok m => scanAux H r sfx (some m.withDirty, idx)) = _
    rw [if_neg]
    · rw [hdec]
      exact scanAux_rooted H r n.withDirty sfx idx
    · rintro (h | h)
      · exact Bool.false_ne_true h
      · exact h hE
  | cons e pfx ih =>
    intro hpfx sfx idx
    show (if (none : Option Node).isSome ∨ MerkleValueRoot H e ≠ r then
        scanAux H r (pfx ++ E :: sfx) (none, insertIdx idx (MerkleValueRoot H e) e)
      else
        match DecodeBytes e with
        | .error _ => .error ()
        | .ok m => scanAux H r (pfx ++ E :: sfx) (some m.withDirty, idx)) = _
    rw [if_pos (Or.inr (hpfx e (List.mem_cons_self e pfx)))]
    exact ih (fun x hx => hpfx x (List.mem_cons_of_mem e hx)) sfx _

/-- C5. The scan of `BuildTrie` identifies each encoded node by
`MerkleValueRoot`, which always hashes (it equals `H` applied to the
encoding whatever its length, unlike `MerkleValue` which inlines short
encodings); the first node whose digest equals the expected root hash is
decoded as the root and marked dirty; every other node — before or after the
root, whatever its digest — is stored in the digest-to-encoding index; and
`BuildTrie` then returns the trie obtained by running `LoadProof` on that
root with that index. -/
theorem buildTrie_root_and_index (H : Hash) (r : Bytes) (E : Bytes) (n : Node)
    (pfx sfx : List Bytes)
    (hpfx : ∀ e ∈ pfx, MerkleValueRoot H e ≠ r)
    (hE : MerkleValueRoot H E = r) (hdec : DecodeBytes E = .ok n) :
    (∀ enc, MerkleValueRoot H enc = H enc
      ∧ (enc.length < 32 → MerkleValue H enc = enc))
    ∧ scanProof H (pfx ++ E :: sfx) r
        = .ok (some n.withDirty, insertAll H sfx (insertAll H pfx emptyIndex))
    ∧ ∀ fuel, BuildTrie fuel H (pfx ++ E :: sfx) r
        = (some (NewTrie ((LoadProof fuel
            (insertAll H sfx (insertAll H pfx emptyIndex)) n.withDirty).1)), none) := by
  have hscan : scanProof H (pfx ++ E :: sfx) r
      = .ok (some n.withDirty, insertAll H sfx (insertAll H pfx emptyIndex)) :=
    scanAux_root_found H r E n hE hdec pfx hpfx sfx emptyIndex
  refine ⟨fun enc => ⟨rfl, fun h => if_pos h⟩, hscan, fun fuel => ?_⟩
  have hne : pfx ++ E :: sfx ≠ [] := by
    cases pfx <;> simp
  unfold BuildTrie
  rw [if_neg hne, hscan]
  show (match LoadProof fuel (insertAll H sfx (insertAll H pfx emptyIndex)) n.withDirty with
    | (_, some _) => ((none : Option Trie), (none : Option ProofError))
    | (root2, none) => (some (NewTrie root2), none)) = _
  have herr := LoadProof_err fuel (insertAll H sfx (insertAll H pfx emptyIndex)) n.withDirty
  rcases hlp : LoadProof fuel (insertAll H sfx (insertAll H pfx emptyIndex)) n.withDirty
    with ⟨root2, e?⟩
  rw [hlp] at herr
  cases e? with
  | none => rfl
  | some e => exact absurd herr (Option.some_ne_none e)

/-- Witness for C5: the scenario with one non-matching node before the root
encoding `leafEncA` and none after it, under the concrete hash `idHash`. -/
theorem buildTrie_root_and_index_witness :
    (∀ enc, MerkleValueRoot idHash enc = idHash enc
      ∧ (enc.length < 32 → MerkleValue idHash enc = enc))
    ∧ scanProof idHash ([leafEncB] ++ leafEncA :: []) leafEncA
        = .ok (some (Node.mk [1] (some [2]) [] [] false 0).withDirty,
            insertAll idHash [] (insertAll idHash [leafEncB] emptyIndex))
    ∧ ∀ fuel, BuildTrie fuel idHash ([leafEncB] ++ leafEncA :: []) leafEncA
        = (some (NewTrie ((LoadProof fuel
            (insertAll idHash [] (insertAll idHash [leafEncB] emptyIndex))
            (Node.mk [1] (some [2]) [] [] false 0).withDirty).1)), none) :=
  buildTrie_root_and_index idHash leafEncA leafEncA
    (Node.mk [1] (some [2]) [] [] false 0) [leafEncB] []
    (by decide) rfl rfl

/-- C1 (the code on the claim's scenario). The proof `[leafEncA]` with root
hash `idHash leafEncA` builds a trie holding the single dirty leaf `leafA`;
the lookup of key `0x11` in it is absent; yet `Verify` returns `nil`, not
`ErrKeyNotFoundInProofTrie`. -/
theorem verify_nil_on_key_not_found :
    BuildTrie 9 idHash [leafEncA] leafEncA = (some (NewTrie leafA), none)
    ∧ Trie.Get (NewTrie leafA) [17] = none
    ∧ Verify 9 idHash [leafEncA] leafEncA [17] [] = none :=
  ⟨rfl, rfl, rfl⟩

/-- C4 (the code on the claim's scenario). The proof `[leafEncB]` builds a
trie in which key `0x11` has the value `[2]`; the caller-supplied expected
value `[9]` is non-empty and differs; yet `Verify` returns `nil`, not
`ErrValueMismatchProofTrie`. -/
theorem verify_nil_on_value_mismatch :
    BuildTrie 9 idHash [leafEncB] leafEncB = (some (NewTrie leafB), none)
    ∧ Trie.Get (NewTrie leafB) [17] = some [2]
    ∧ ([9] : Bytes) ≠ [2]
    ∧ Verify 9 idHash [leafEncB] leafEncB [17] [9] = none :=
  ⟨rfl, rfl, by decide, rfl⟩

/-- C3 (the code on the claim's scenario). A non-empty proof none of whose
digests equals the expected root hash makes `BuildTrie` return `nil, nil`,
not `ErrRootNodeNotFound`. -/
theorem buildTrie_nil_on_root_not_found :
    ([leafEncA] : List Bytes) ≠ []
    ∧ MerkleValueRoot idHash leafEncA ≠ [9, 9]
    ∧ BuildTrie 9 idHash [leafEncA] [9, 9] = (none, none) :=
  ⟨by decide, by decide, rfl⟩

/-- C2 (the code on the claim's scenario). The index holds the digest `[2]`
of `branchB`'s only child slot but maps it to the undecodable encoding
`[1]`; `LoadProof` returns a nil error (and leaves the node untouched)
instead of a decode error carrying the digest. -/
theorem loadProof_nil_on_decode_error :
    idxB hashRefB.nodeValue = some [1]
    ∧ DecodeBytes [1] = .error (.variantUnknown 1)
    ∧ LoadProof 5 idxB branchB = (branchB, none) :=
  ⟨rfl, rfl, rfl⟩

/-- C7 (the code on the claim's scenario). After `LoadProof` returns without
error on `branchC`, the first child slot still holds the bare hash reference
`hashRefC`: it is not materialised, not an inlined child, and its digest was
present in the index — a dangling hash reference that the claimed invariant
forbids. -/
theorem loadProof_leaves_dangling_reference :
    (LoadProof 5 idxC branchC).2 = none
    ∧ (LoadProof 5 idxC branchC).1.children.getD 0 none = some hashRefC
    ∧ inlinedChild hashRefC = false
    ∧ idxC hashRefC.nodeValue ≠ none :=
  ⟨rfl, rfl, rfl, by decide⟩

/-! Lemmas about the loop of `LoadProof`, used for the pruning theorem. -/

/-- A nil child slot is skipped by the loop. -/
theorem loadSlot_skip (rec : Node → Node) (idx : Index) (i : Nat) (st : LPState) :
    loadSlot rec idx i none st = st := by
  unfold loadSlot
  exact ite_self st

/-- The loop body on a non-inlined child slot absent from the index: the slot
is emptied, the wrapped `1 + descendants` is subtracted, and the children
array is cleared when no child remains. -/
theorem loadSlot_prune (rec : Node → Node) (idx : Index) (i : Nat) (c : Node)
    (ch : List (Option Node)) (ds : Nat)
    (hc : idx c.nodeValue = none) (hin : inlinedChild c = false) :
    loadSlot rec idx i (some c) ⟨ch, ds, false⟩ =
      ⟨if (ch.set i none).any (fun x => x.isSome) then ch.set i none else [],
        wsub ds (wadd 1 c.descendants), false⟩ := by
  simp only [loadSlot, hc, hin, Bool.false_eq_true, if_false]

/-- The loop body on an inlined child slot absent from the index: the child is
kept in place and marked dirty. -/
theorem loadSlot_keep (rec : Node → Node) (idx : Index) (i : Nat) (c : Node)
    (ch : List (Option Node)) (ds : Nat)
    (hc : idx c.nodeValue = none) (hin : inlinedChild c = true) :
    loadSlot rec idx i (some c) ⟨ch, ds, false⟩ =
      ⟨ch.set i (some c.withDirty), ds, false⟩ := by
  simp only [loadSlot, hc, hin, if_true, Bool.false_eq_true, if_false]

/-- The loop splits over an append of the slot list. -/
theorem loadSlots_append (rec : Node → Node) (idx : Index)
    (l1 l2 : List (Option Node)) :
    ∀ (i : Nat) (st : LPState),
    loadSlots rec idx (l1 ++ l2) i st
      = loadSlots rec idx l2 (i + l1.length) (loadSlots rec idx l1 i st) := by
  induction l1 with
  | nil => intro i st; simp [loadSlots]
  | cons s rest ih =>
    intro i st
    show loadSlots rec idx (rest ++ l2) (i + 1) (loadSlot rec idx i s st) = _
    rw [ih]
    have h : i + 1 + rest.length = i + (s :: rest).length := by
      simp [List.length_cons]
      omega
    rw [h]
    rfl

/-- The loop over nil slots only leaves the state unchanged. -/
theorem loadSlots_rep_none (rec : Node → Node) (idx : Index) (k : Nat) :
    ∀ (i : Nat) (st : LPState),
    loadSlots rec idx (List.replicate k none) i st = st := by
  induction k with
  | zero => intro i st; rfl
  | succ m ih =>
    intro i st
    show loadSlots rec idx (List.replicate m none) (i + 1) (loadSlot rec idx i none st) = st
    rw [loadSlot_skip]
    exact ih _ _

/-- Setting the element right after a prefix of an append. -/
theorem set_len_append (l1 : List (Option Node)) (x y : Option Node)
    (l2 : List (Option Node)) :
    (l1 ++ x :: l2).set l1.length y = l1 ++ y :: l2 := by
  induction l1 with
  | nil => rfl
  | cons a l ih =>
    show a :: (l ++ x :: l2).set l.length y = _
    rw [ih]
    rfl

/-- Setting slot `a` after `a` nil slots. -/
theorem set_rep_append (a : Nat) (x y : Option Node) (l2 : List (Option Node)) :
    (List.replicate a none ++ x :: l2).set a y = List.replicate a none ++ y :: l2 := by
  have h := set_len_append (List.replicate a (none : Option Node)) x y l2
  rwa [List.length_replicate] at h

/-- A list of nil slots has no non-empty slot. -/
theorem any_isSome_rep (k : Nat) :
    (List.replicate k (none : Option Node)).any (fun c => c.isSome) = false := by
  induction k with
  | zero => rfl
  | succ m ih =>
    show (false || (List.replicate m (none : Option Node)).any (fun c => c.isSome)) = false
    rw [Bool.false_or]
    exact ih

/-- Nil slots around a nil slot have no non-empty slot. -/
theorem any_isSome_rep_append (a b : Nat) :
    (List.replicate a (none : Option Node) ++ none :: List.replicate b none).any
      (fun c => c.isSome) = false := by
  rw [List.any_append]
  rw [any_isSome_rep]
  show (false || (false || _)) = false
  rw [Bool.false_or, Bool.false_or]
  exact any_isSome_rep b

/-- A slot list with a slot in it is not empty. -/
theorem isEmpty_rep_append (a : Nat) (x : Option Node) (l : List (Option Node)) :
    (List.replicate a none ++ x :: l).isEmpty = false := by
  cases a <;> rfl

/-- Unfolding of `LoadProof` on a branch: the loop runs over the children and
the resulting children and descendant count are written back. -/
theorem LoadProof_branch (fuel : Nat) (idx : Index) (pk : Bytes) (sv : Option Bytes)
    (nv : Bytes) (dt : Bool) (ds : Nat) (ch : List (Option Node))
    (hch : ch.isEmpty = false) :
    LoadProof (fuel + 1) idx (.mk pk sv ch nv dt ds)
      = ((Node.mk pk sv ch nv dt ds).withChildrenDesc
          (loadSlots (fun m => (LoadProof fuel idx m).1) idx ch 0 ⟨ch, ds, false⟩).children
          (loadSlots (fun m => (LoadProof fuel idx m).1) idx ch 0 ⟨ch, ds, false⟩).desc,
        none) := by
  show (if (Node.mk pk sv ch nv dt ds).children.isEmpty = true then
      ((Node.mk pk sv ch nv dt ds), (none : Option ProofError))
    else
      let st := loadSlots (fun m => (LoadProof fuel idx m).1) idx
        (Node.mk pk sv ch nv dt ds).children 0
        ⟨(Node.mk pk sv ch nv dt ds).children, (Node.mk pk sv ch nv dt ds).descendants, false⟩
      ((Node.mk pk sv ch nv dt ds).withChildrenDesc st.children st.desc, none)) = _
  simp only [Node.children, Node.descendants]
  rw [hch]
  simp only [Bool.false_eq_true, if_false]

/-- C6. For a branch processed by `LoadProof`, a non-empty child slot absent
from the index that is not an inlined child is pruned: the slot is emptied,
the wrapped `1 + descendants` of the child is subtracted from the parent's
descendant count, and when no children remain the children array is cleared
(collapse to leaf, first conjunct); an inlined child in the same situation
is kept as-is and marked dirty, with no descendant change (second
conjunct); and when another child remains after the pruning, the children
array is not cleared (third conjunct). -/
theorem loadProof_prunes_absent_children (fuel : Nat) (idx : Index) (a b : Nat)
    (c d : Node) (pk : Bytes) (sv : Option Bytes) (nv : Bytes) (dt : Bool) (ds : Nat)
    (hc : idx c.nodeValue = none) (hd : idx d.nodeValue = none) :
    (inlinedChild c = false →
      LoadProof (fuel + 1) idx
        (.mk pk sv (List.replicate a none ++ some c :: List.replicate b none) nv dt ds)
        = (.mk pk sv [] nv dt (wsub ds (wadd 1 c.descendants)), none))
    ∧ (inlinedChild c = true →
      LoadProof (fuel + 1) idx
        (.mk pk sv (List.replicate a none ++ some c :: List.replicate b none) nv dt ds)
        = (.mk pk sv (List.replicate a none ++ some c.withDirty :: List.replicate b none)
            nv dt ds, none))
    ∧ (inlinedChild c = false → inlinedChild d = true →
      LoadProof (fuel + 1) idx
        (.mk pk sv (some c :: some d :: List.replicate b none) nv dt ds)
        = (.mk pk sv (none :: some d.withDirty :: List.replicate b none) nv dt
            (wsub ds (wadd 1 c.descendants)), none)) := by
  set rec := fun m => (LoadProof fuel idx m).1 with hrec
  refine ⟨?_, ?_, ?_⟩
  · intro hin
    rw [LoadProof_branch fuel idx pk sv nv dt ds _ (isEmpty_rep_append a (some c) _)]
    have hst : loadSlots rec idx (List.replicate a none ++ some c :: List.replicate b none) 0
        ⟨List.replicate a none ++ some c :: List.replicate b none, ds, false⟩
        = ⟨[], wsub ds (wadd 1 c.descendants), false⟩ := by
      rw [loadSlots_append, loadSlots_rep_none, List.length_replicate, Nat.zero_add]
      show loadSlots rec idx (List.replicate b none) (a + 1)
        (loadSlot rec idx a (some c)
          ⟨List.replicate a none ++ some c :: List.replicate b none, ds, false⟩) = _
      rw [loadSlot_prune rec idx a c _ ds hc hin]
      rw [set_rep_append, any_isSome_rep_append]
      simp only [Bool.false_eq_true, if_false]
      exact loadSlots_rep_none rec idx b _ _
    rw [hst]
    rfl
  · intro hin
    rw [LoadProof_branch fuel idx pk sv nv dt ds _ (isEmpty_rep_append a (some c) _)]
    have hst : loadSlots rec idx (List.replicate a none ++ some c :: List.replicate b none) 0
        ⟨List.replicate a none ++ some c :: List.replicate b none, ds, false⟩
        = ⟨List.replicate a none ++ some c.withDirty :: List.replicate b none, ds, false⟩ := by
      rw [loadSlots_append, loadSlots_rep_none, List.length_replicate, Nat.zero_add]
      show loadSlots rec idx (List.replicate b none) (a + 1)
        (loadSlot rec idx a (some c)
          ⟨List.replicate a none ++ some c :: List.replicate b none, ds, false⟩) = _
      rw [loadSlot_keep rec idx a c _ ds hc hin]
      rw [set_rep_append]
      exact loadSlots_rep_none rec idx b _ _
    rw [hst]
    rfl
  · intro hinc hind
    rw [LoadProof_branch fuel idx pk sv nv dt ds
      (some c :: some d :: List.replicate b none) rfl]
    have hst : loadSlots rec idx (some c :: some d :: List.replicate b none) 0
        ⟨some c :: some d :: List.replicate b none, ds, false⟩
        = ⟨none :: some d.withDirty :: List.replicate b none,
            wsub ds (wadd 1 c.descendants), false⟩ := by
      show loadSlots rec idx (some d :: List.replicate b none) 1
        (loadSlot rec idx 0 (some c) ⟨some c :: some d :: List.replicate b none, ds, false⟩) = _
      rw [loadSlot_prune rec idx 0 c _ ds hc hinc]
      show loadSlots rec idx (List.replicate b none) 2
        (loadSlot rec idx 1 (some d)
          (⟨if ((some c :: some d :: List.replicate b none).set 0 none).any (fun x => x.isSome)
              then (some c :: some d :: List.replicate b none).set 0 none else [],
            wsub ds (wadd 1 c.descendants), false⟩ : LPState)) = _
      have hany : ((some c :: some d :: List.replicate b none).set 0 none).any
          (fun x => x.isSome) = true := by
        show ((none :: some d :: List.replicate b none).any (fun x => x.isSome)) = true
        show (false || (true || _)) = true
        rw [Bool.false_or, Bool.true_or]
      rw [hany]
      simp only [if_true]
      rw [loadSlot_keep rec idx 1 d _ _ hd hind]
      show loadSlots rec idx (List.replicate b none) 2
        ⟨none :: some d.withDirty :: List.replicate b none,
          wsub ds (wadd 1 c.descendants), false⟩ = _
      exact loadSlots_rep_none rec idx b _ _
    rw [hst]
    rfl

/-- Witness for C6: a branch with two leading nil slots, the hash-reference
child `hashRefC` (not inlined) and an inlined leaf child, under the empty
index. -/
theorem loadProof_prunes_absent_children_witness :
    (inlinedChild hashRefC = false →
      LoadProof (3 + 1) emptyIndex
        (.mk [1] (some [2])
          (List.replicate 2 none ++ some hashRefC :: List.replicate 3 none) [] false 7)
        = (.mk [1] (some [2]) [] [] false (wsub 7 (wadd 1 hashRefC.descendants)), none))
    ∧ (inlinedChild hashRefC = true →
      LoadProof (3 + 1) emptyIndex
        (.mk [1] (some [2])
          (List.replicate 2 none ++ some hashRefC :: List.replicate 3 none) [] false 7)
        = (.mk [1] (some [2])
            (List.replicate 2 none ++ some hashRefC.withDirty :: List.replicate 3 none)
            [] false 7, none))
    ∧ (inlinedChild hashRefC = false →
        inlinedChild (Node.mk [4] (some [5]) [] [] false 0) = true →
      LoadProof (3 + 1) emptyIndex
        (.mk [1] (some [2])
          (some hashRefC :: some (Node.mk [4] (some [5]) [] [] false 0)
            :: List.replicate 3 none) [] false 7)
        = (.mk [1] (some [2])
            (none :: some (Node.mk [4] (some [5]) [] [] false 0).withDirty
              :: List.replicate 3 none) [] false
            (wsub 7 (wadd 1 hashRefC.descendants)), none)) :=
  loadProof_prunes_absent_children 3 emptyIndex 2 3 hashRefC
    (Node.mk [4] (some [5]) [] [] false 0) [1] (some [2]) [] false 7 rfl rfl

/-! Lemmas about the scanning loop of `BuildTrie`, used for the
order-independence theorem. -/

/-- One step of the scan, as an equation. -/
theorem scanAux_cons (H : Hash) (r e : Bytes) (l : List Bytes)
    (st : Option Node × Index) :
    scanAux H r (e :: l) st =
      if st.1.isSome ∨ MerkleValueRoot H e ≠ r then
        scanAux H r l (st.1, insertIdx st.2 (MerkleValueRoot H e) e)
      else
        match DecodeBytes e with
        | .error _ => .error ()
        | .ok n => scanAux H r l (some n.withDirty, st.2) := rfl

/-- Two insertions into the index commute when their digests differ or their
encodings agree. -/
theorem insertIdx_comm (m : Index) (d1 e1 d2 e2 : Bytes)
    (h : d1 ≠ d2 ∨ e1 = e2) :
    insertIdx (insertIdx m d1 e1) d2 e2 = insertIdx (insertIdx m d2 e2) d1 e1 := by
  funext k
  simp only [insertIdx]
  split_ifs with hk2 hk1 hk1 <;> try rfl
  rcases h with h | h
  · exact absurd (hk1.symm.trans hk2) h
  · rw [h]

/-- A scan step that indexes the encoding (root already found or digest
differs from the root hash). -/
theorem scanAux_cons_skip (H : Hash) (r e : Bytes) (l : List Bytes)
    (st : Option Node × Index)
    (h : st.1.isSome = true ∨ MerkleValueRoot H e ≠ r) :
    scanAux H r (e :: l) st
      = scanAux H r l (st.1, insertIdx st.2 (MerkleValueRoot H e) e) := by
  rw [scanAux_cons, if_pos h]

/-- A scan step that takes the encoding as root but fails to decode it. -/
theorem scanAux_cons_root_err (H : Hash) (r e : Bytes) (l : List Bytes)
    (st : Option Node × Index) (er : DecodeError)
    (h1 : ¬(st.1.isSome = true ∨ MerkleValueRoot H e ≠ r))
    (h2 : DecodeBytes e = .error er) :
    scanAux H r (e :: l) st = .error () := by
  rw [scanAux_cons, if_neg h1, h2]

/-- A scan step that takes the encoding as root and decodes it. -/
theorem scanAux_cons_root_ok (H : Hash) (r e : Bytes) (l : List Bytes)
    (st : Option Node × Index) (n : Node)
    (h1 : ¬(st.1.isSome = true ∨ MerkleValueRoot H e ≠ r))
    (h2 : DecodeBytes e = .ok n) :
    scanAux H r (e :: l) st = scanAux H r l (some n.withDirty, st.2) := by
  rw [scanAux_cons, if_neg h1, h2]

/-- Swapping the two first scanned encodings does not change the scan, as
long as the hash does not collide on them. -/
theorem scanAux_swap (H : Hash) (r x y : Bytes) (l : List Bytes)
    (hxy : H x = H y → x = y) (st : Option Node × Index) :
    scanAux H r (x :: y :: l) st = scanAux H r (y :: x :: l) st := by
  rcases st with ⟨root?, idx⟩
  have hcomm : insertIdx (insertIdx idx (MerkleValueRoot H x) x) (MerkleValueRoot H y) y
      = insertIdx (insertIdx idx (MerkleValueRoot H y) y) (MerkleValueRoot H x) x := by
    by_cases hH : H x = H y
    · exact insertIdx_comm idx _ x _ y (Or.inr (hxy hH))
    · exact insertIdx_comm idx _ x _ y (Or.inl hH)
  cases root? with
  | some n =>
    calc scanAux H r (x :: y :: l) (some n, idx)
        = scanAux H r (y :: l) (some n, insertIdx idx (MerkleValueRoot H x) x) :=
          scanAux_cons_skip H r x (y :: l) (some n, idx) (Or.inl rfl)
      _ = scanAux H r l (some n,
            insertIdx (insertIdx idx (MerkleValueRoot H x) x) (MerkleValueRoot H y) y) :=
          scanAux_cons_skip H r y l (some n, insertIdx idx (MerkleValueRoot H x) x)
            (Or.inl rfl)
      _ = scanAux H r l (some n,
            insertIdx (insertIdx idx (MerkleValueRoot H y) y) (MerkleValueRoot H x) x) := by
          rw [hcomm]
      _ = scanAux H r (x :: l) (some n, insertIdx idx (MerkleValueRoot H y) y) :=
          (scanAux_cons_skip H r x l (some n, insertIdx idx (MerkleValueRoot H y) y)
            (Or.inl rfl)).symm
      _ = scanAux H r (y :: x :: l) (some n, idx) :=
          (scanAux_cons_skip H r y (x :: l) (some n, idx) (Or.inl rfl)).symm
  | none =>
    by_cases hx : MerkleValueRoot H x = r
    · by_cases hy : MerkleValueRoot H y = r
      · have hxy2 : x = y := hxy (hx.trans hy.symm)
        subst hxy2
        rfl
      · have hnx : ¬((none : Option Node).isSome = true ∨ MerkleValueRoot H x ≠ r) := by
          rintro (h | h)
          · exact Bool.false_ne_true h
          · exact h hx
        have hpy : (none : Option Node).isSome = true ∨ MerkleValueRoot H y ≠ r := Or.inr hy
        cases hdec : DecodeBytes x with
        | error er =>
          calc scanAux H r (x :: y :: l) (none, idx)
              = .error () := scanAux_cons_root_err H r x (y :: l) (none, idx) er hnx hdec
            _ = scanAux H r (x :: l) (none, insertIdx idx (MerkleValueRoot H y) y) :=
                (scanAux_cons_root_err H r x l
                  (none, insertIdx idx (MerkleValueRoot H y) y) er hnx hdec).symm
            _ = scanAux H r (y :: x :: l) (none, idx) :=
                (scanAux_cons_skip H r y (x :: l) (none, idx) hpy).symm
        | ok n =>
          calc scanAux H r (x :: y :: l) (none, idx)
              = scanAux H r (y :: l) (some n.withDirty, idx) :=
                scanAux_cons_root_ok H r x (y :: l) (none, idx) n hnx hdec
            _ = scanAux H r l (some n.withDirty, insertIdx idx (MerkleValueRoot H y) y) :=
                scanAux_cons_skip H r y l (some n.withDirty, idx) (Or.inl rfl)
            _ = scanAux H r (x :: l) (none, insertIdx idx (MerkleValueRoot H y) y) :=
                (scanAux_cons_root_ok H r x l
                  (none, insertIdx idx (MerkleValueRoot H y) y) n hnx hdec).symm
            _ = scanAux H r (y :: x :: l) (none, idx) :=
                (scanAux_cons_skip H r y (x :: l) (none, idx) hpy).symm
    · by_cases hy : MerkleValueRoot H y = r
      · have hny : ¬((none : Option Node).isSome = true ∨ MerkleValueRoot H y ≠ r) := by
          rintro (h | h)
          · exact Bool.false_ne_true h
          · exact h hy
        have hpx : (none : Option Node).isSome = true ∨ MerkleValueRoot H x ≠ r := Or.inr hx
        cases hdec : DecodeBytes y with
        | error er =>
          calc scanAux H r (x :: y :: l) (none, idx)
              = scanAux H r (y :: l) (none, insertIdx idx (MerkleValueRoot H x) x) :=
                scanAux_cons_skip H r x (y :: l) (none, idx) hpx
            _ = .error () :=
                scanAux_cons_root_err H r y l
                  (none, insertIdx idx (MerkleValueRoot H x) x) er hny hdec
            _ = scanAux H r (y :: x :: l) (none, idx) :=
                (scanAux_cons_root_err H r y (x :: l) (none, idx) er hny hdec).symm
        | ok n =>
          calc scanAux H r (x :: y :: l) (none, idx)
              = scanAux H r (y :: l) (none, insertIdx idx (MerkleValueRoot H x) x) :=
                scanAux_cons_skip H r x (y :: l) (none, idx) hpx
            _ = scanAux H r l (some n.withDirty, insertIdx idx (MerkleValueRoot H x) x) :=
                scanAux_cons_root_ok H r y l
                  (none, insertIdx idx (MerkleValueRoot H x) x) n hny hdec
            _ = scanAux H r (x :: l) (some n.withDirty, idx) :=
                (scanAux_cons_skip H r x l (some n.withDirty, idx) (Or.inl rfl)).symm
            _ = scanAux H r (y :: x :: l) (none, idx) :=
                (scanAux_cons_root_ok H r y (x :: l) (none, idx) n hny hdec).symm
      · calc scanAux H r (x :: y :: l) (none, idx)
            = scanAux H r (y :: l) (none, insertIdx idx (MerkleValueRoot H x) x) :=
              scanAux_cons_skip H r x (y :: l) (none, idx) (Or.inr hx)
          _ = scanAux H r l (none,
                insertIdx (insertIdx idx (MerkleValueRoot H x) x) (MerkleValueRoot H y) y) :=
              scanAux_cons_skip H r y l (none, insertIdx idx (MerkleValueRoot H x) x)
                (Or.inr hy)
          _ = scanAux H r l (none,
                insertIdx (insertIdx idx (MerkleValueRoot H y) y) (MerkleValueRoot H x) x) := by
              rw [hcomm]
          _ = scanAux H r (x :: l) (none, insertIdx idx (MerkleValueRoot H y) y) :=
              (scanAux_cons_skip H r x l (none, insertIdx idx (MerkleValueRoot H y) y)
                (Or.inr hx)).symm
          _ = scanAux H r (y :: x :: l) (none, idx) :=
              (scanAux_cons_skip H r y (x :: l) (none, idx) (Or.inr hy)).symm

/-- The scan is invariant under permutations of the proof when the hash has
no collision among the proof's encodings. -/
theorem scanAux_perm (H : Hash) (r : Bytes) :
    ∀ {p q : List Bytes}, p.Perm q →
    (∀ a ∈ p, ∀ b ∈ p, H a = H b → a = b) →
    ∀ st, scanAux H r p st = scanAux H r q st := by
  intro p q hpq
  induction hpq with
  | nil => intro _ st; rfl
  | cons x h ih =>
    intro hinj st
    rw [scanAux_cons, scanAux_cons]
    have hinj2 := fun a ha b hb =>
      hinj a (List.mem_cons_of_mem x ha) b (List.mem_cons_of_mem x hb)
    split
    · exact ih hinj2 _
    · cases DecodeBytes x with
      | error e => rfl
      | ok n => exact ih hinj2 _
  | swap x y l =>
    intro hinj st
    exact scanAux_swap H r y x l
      (fun h => hinj y (List.mem_cons_self y _) x
        (List.mem_cons_of_mem y (List.mem_cons_self x _)) h) st
  | trans h1 h2 ih1 ih2 =>
    intro hinj st
    rw [ih1 hinj st]
    exact ih2 (fun a ha b hb =>
      hinj a (h1.mem_iff.mpr ha) b (h1.mem_iff.mpr hb)) st

/-- C8. For every proof, root hash and permutation of the proof's encoded
nodes, `BuildTrie` yields structurally equal results (tries equal node by
node, descendant counts included) on the original and the permuted proof.
The hash is abstract here, so the theorem assumes what is true of BLAKE2b on
any feasibly constructible proof: no two distinct encodings in the proof
share a digest. -/
theorem buildTrie_order_independent (fuel : Nat) (H : Hash) (r : Bytes)
    (p q : List Bytes) (hpq : p.Perm q)
    (hinj : ∀ a ∈ p, ∀ b ∈ p, H a = H b → a = b) :
    BuildTrie fuel H p r = BuildTrie fuel H q r := by
  by_cases hp : p = []
  · subst hp
    have hq : q = [] := hpq.symm.eq_nil
    subst hq
    rfl
  · have hq : q ≠ [] := fun h => hp (by subst h; exact hpq.eq_nil)
    have hscan : scanProof H p r = scanProof H q r :=
      scanAux_perm H r hpq hinj (none, emptyIndex)
    unfold BuildTrie
    rw [if_neg hp, if_neg hq, hscan]

/-- Witness for C8: the two-node proof `[leafEncA, leafEncB]` and its
swap, under the concrete hash `idHash` (injective on these encodings). -/
theorem buildTrie_order_independent_witness :
    BuildTrie 9 idHash [leafEncA, leafEncB] leafEncA
      = BuildTrie 9 idHash [leafEncB, leafEncA] leafEncA :=
  buildTrie_order_independent 9 idHash leafEncA [leafEncA, leafEncB]
    [leafEncB, leafEncA] (List.Perm.swap leafEncB leafEncA []) (by decide)

end TrieGo
